import Mathlib

/-!
Verification development for the `diytips` repository.

The Python sources are embedded shallowly: text is `List Char`, Python floats
are modelled as exact rationals (`ℚ`), Python `int()` truncation is explicit,
and code that consults the outside world (HTTP fetches, the font metric of
`draw.textbbox`, `math.sin`/`math.cos`, pseudo-random draws) takes that
outside data as an explicit argument.
-/

namespace DiyTips

/-! ### Python string primitives -/

/-- Python whitespace test used by `str.split()` / `str.strip()`. -/
def isSpaceChar (c : Char) : Bool :=
  c = ' ' || c = '\t' || c = '\n' || c = '\x0d' || c = '\x0b' || c = '\x0c'

/-- Helper for `pyWords`: accumulates the current word (reversed) while
scanning; splits at whitespace runs, dropping empty pieces, as Python's
`str.split()` does. -/
def splitWordsAux : List Char → List Char → List (List Char)
  | [], acc => if acc = [] then [] else [acc.reverse]
  | c :: cs, acc =>
    if isSpaceChar c then
      if acc = [] then splitWordsAux cs []
      else acc.reverse :: splitWordsAux cs []
    else splitWordsAux cs (c :: acc)

/-- Python `text.split()`: the whitespace-separated words of `text`. -/
def pyWords (text : List Char) : List (List Char) :=
  splitWordsAux text []

/-- Python `' '.join(pieces)`. -/
def sjoin : List (List Char) → List Char
  | [] => []
  | [w] => w
  | w :: ws => w ++ ' ' :: sjoin ws

/-- Floor of a rational, written so that the kernel can evaluate it
(`Int` division in Lean is Euclidean, which is the floor here because a
`Rat` denominator is positive). -/
def ratFloor (q : ℚ) : ℤ := q.num / (q.den : ℤ)

theorem ratFloor_eq_floor (q : ℚ) : ratFloor q = ⌊q⌋ := Rat.floor_def.symm

/-- Python `int(q)` on a real value: truncation toward zero. -/
def pyTrunc (q : ℚ) : ℤ :=
  if 0 ≤ q then ratFloor q else -ratFloor (-q)

theorem pyTrunc_of_nonneg {q : ℚ} (h : 0 ≤ q) : pyTrunc q = ⌊q⌋ := by
  rw [pyTrunc, if_pos h, ratFloor_eq_floor]

/-! ### `simple.py` — `TypingFrameGenerator.wrap_text` (lines 445-468)

The width estimate is the source's `len(test_line) * font.size // 2`. -/

/-- `len(line) * font.size // 2`, the pixel-width estimate `wrap_text` uses. -/
def lineWidthEstimate (line : List Char) (fontSize : ℕ) : ℕ :=
  line.length * fontSize / 2

/-- The word loop of `wrap_text`: `cur` is `current_line`, `lines` the
accumulated output.  Mirrors the append/test/pop structure of the source. -/
def wrapLoop (fontSize maxWidth : ℕ) : List (List Char) → List (List Char) →
    List (List Char) → List (List Char)
  | [], cur, lines => if cur = [] then lines else lines ++ [sjoin cur]
  | w :: ws, cur, lines =>
    if lineWidthEstimate (sjoin (cur ++ [w])) fontSize > maxWidth then
      if (cur ++ [w]).length = 1 then
        wrapLoop fontSize maxWidth ws [] (lines ++ [w])
      else wrapLoop fontSize maxWidth ws [w] (lines ++ [sjoin cur])
    else wrapLoop fontSize maxWidth ws (cur ++ [w]) lines

/-- `TypingFrameGenerator.wrap_text(text, font, max_width, draw)`. -/
def wrap_text (fontSize maxWidth : ℕ) (text : List Char) : List (List Char) :=
  wrapLoop fontSize maxWidth (pyWords text) [] []

/-! ### `simple.py` — `TypingFrameGenerator.apply_typing_effect` (lines 413-443) -/

/-- The per-line reveal loop of `apply_typing_effect`: walks the wrapped
lines distributing `chars_to_show` characters; `used` is `chars_used`. -/
def showLines (charsToShow : ℤ) : List (List Char) → ℤ → List (List Char)
  | [], _ => []
  | line :: rest, used =>
    if used ≥ charsToShow then [] :: showLines charsToShow rest used
    else if charsToShow - used ≥ (line.length : ℤ) then
      line :: showLines charsToShow rest (used + line.length)
    else
      line.take (charsToShow - used).toNat :: showLines charsToShow rest charsToShow

/-- `TypingFrameGenerator.apply_typing_effect(full_text, font, draw, width,
progress)`.  `typing_duration = 0.7`; `max_width = int(width * 0.85)`. -/
def apply_typing_effect (fontSize width : ℕ) (fullText : List Char)
    (progress : ℚ) : List (List Char) :=
  let maxWidth := width * 85 / 100
  let lines := wrap_text fontSize maxWidth fullText
  if progress ≤ 7/10 then
    let typingProgress := progress / (7/10)
    let totalChars : ℕ := (lines.map List.length).sum
    let charsToShow : ℤ := pyTrunc ((totalChars : ℚ) * typingProgress)
    showLines charsToShow lines 0
  else
    lines

/-! ### `simple.py` — logo loading and the frame loop -/

/-- An image, reduced to its dimensions and provenance. -/
structure Logo where
  w : ℕ
  h : ℕ
  /-- `True` for the drawn "BRAND" placeholder produced in the `except` arm. -/
  isFallback : Bool
  deriving Repr, DecidableEq

/-- `TypingFrameGenerator.load_logo` (lines 369-383): `fetch` is the outcome
of the HTTP fetch plus decode (`none` = any exception).  On success the logo
is resized to `120×60`; on failure a `120×60` placeholder is drawn. -/
def load_logo (fetch : Option (ℕ × ℕ)) : Logo :=
  match fetch with
  | some _ => { w := 120, h := 60, isFallback := false }
  | none => { w := 120, h := 60, isFallback := true }

/-- The state of one frame that the embedding tracks: the frame index, the
`progress` value `(frame_idx + 1) / total_frames`, the logo pasted on it and
the revealed text lines drawn on it. -/
structure SimpleFrame where
  frameIdx : ℕ
  progress : ℚ
  logo : Logo
  shownLines : List (List Char)
  deriving Repr, DecidableEq

/-- `TypingFrameGenerator.create_frame` (lines 385-411): font size is
`min(72, height // 15)`; the text layer comes from `apply_typing_effect`. -/
def create_frame (logo : Logo) (text : List Char) (progress : ℚ)
    (frameIdx width height : ℕ) : SimpleFrame :=
  let fontSize := min 72 (height / 15)
  { frameIdx, progress, logo
    shownLines := apply_typing_effect fontSize width text progress }

/-- `generate_typing_video` (lines 511-531): `fps = 24`,
`total_frames = duration * fps`, one `create_frame` per index in
`range(total_frames)` with `progress = (frame_idx + 1) / total_frames`. -/
def generate_typing_video (logoFetch : Option (ℕ × ℕ)) (text : List Char)
    (duration width height : ℕ) : List SimpleFrame :=
  let fps := 24
  let totalFrames := duration * fps
  let logo := load_logo logoFetch
  (List.range totalFrames).map fun (frameIdx : ℕ) =>
    create_frame logo text (((frameIdx : ℚ) + 1) / (totalFrames : ℚ)) frameIdx width height

/-! ### `teens.py` — `GeometricBackground` (lines 54-230)

`math.sin`/`math.cos` are abstracted as arguments `sinA cosA : ℚ → ℚ`
(applied to the exact argument the source passes), and the lazy
`random.randint`/`random.uniform` draws of `update_shapes` are supplied as a
per-shape pair `draws`.  A Python float `%` by a positive modulus is the
floor-based `ratMod`. -/

/-- Python `a % m` on floats, for the positive moduli used here. -/
def ratMod (a m : ℚ) : ℚ := a - m * ratFloor (a / m)

/-- One shape of `GeometricBackground.shapes`.  `Option` fields model dict
keys that `update_shapes` adds on its first call (`center_x`/`orbit_*` for
triangles, `bounce_*` for rectangles).  The circle has no `original_size`
field because no code path ever sets that key, so `shape.get('original_size',
shape['size'])` always reads the current size; likewise `original_x`/
`original_y` for rectangles. -/
inductive Shape where
  | circle (x y size speedX speedY : ℚ)
  | triangle (x y size rotation rotationSpeed : ℚ)
      (orbit : Option (ℚ × ℚ × ℚ × ℚ))
  | rectangle (x y w h rotation rotationSpeed : ℚ) (bounce : Option (ℚ × ℚ))
  | line (x1 y1 x2 y2 lineW speed : ℚ)
  deriving Repr, DecidableEq

/-- The `x` coordinate of a shape (`x1` for a line). -/
def Shape.xCoord : Shape → ℚ
  | .circle x _ _ _ _ => x
  | .triangle x _ _ _ _ _ => x
  | .rectangle x _ _ _ _ _ _ => x
  | .line x1 _ _ _ _ _ => x1

/-- The body of `GeometricBackground.update_shapes` (lines 131-170) for one
shape.  `W`/`H` are the canvas dimensions, `t` the elapsed time `i / fps`,
`draws` the two pseudo-random values a lazy initialisation would consume. -/
def updateShape (W H : ℚ) (sinA cosA : ℚ → ℚ) (t : ℚ) (draws : ℚ × ℚ) :
    Shape → Shape
  | .circle x y size sx sy =>
    .circle (ratMod (x + sx) W) (ratMod (y + sy) H)
      (size * (1 + (1/10) * sinA (t * 2))) sx sy
  | .triangle x y size rot rotSpeed orbit =>
    let rot' := ratMod (rot + rotSpeed) 360
    let ob := orbit.getD (x, y, draws.1, draws.2)
    .triangle (ob.1 + ob.2.2.1 * cosA (t * ob.2.2.2))
      (ob.2.1 + ob.2.2.1 * sinA (t * ob.2.2.2)) size rot' rotSpeed (some ob)
  | .rectangle x y w h rot rotSpeed bounce =>
    let rot' := ratMod (rot + rotSpeed) 360
    let b := bounce.getD draws
    let off := 20 * sinA (t * b.1 + b.2)
    .rectangle (x + off) (y + off) w h rot' rotSpeed (some b)
  | .line x1 y1 x2 y2 lw speed =>
    let mx := speed * cosA (t * (1/2))
    let my := speed * sinA (t * (1/2))
    .line (ratMod (x1 + mx) W) (ratMod (y1 + my) H)
      (ratMod (x2 - mx) W) (ratMod (y2 - my) H) lw speed

/-- `GeometricBackground.update_shapes`: mutates every shape in place; the
returned list is the new `self.shapes`. -/
def update_shapes (W H : ℚ) (sinA cosA : ℚ → ℚ) (drawsFor : ℕ → ℚ × ℚ)
    (t : ℚ) (shapes : List Shape) : List Shape :=
  shapes.mapIdx fun i s => updateShape W H sinA cosA t (drawsFor i) s

/-- The ellipse bounding box `[x-size, y-size, x+size, y+size]` that
`GeometricBackground.draw` emits for a circle. -/
def circleBox : Shape → Option (ℚ × ℚ × ℚ × ℚ)
  | .circle x y size _ _ => some (x - size, y - size, x + size, y + size)
  | _ => none

/-- `GeometricBackground.draw(draw, t)` (lines 172-230): first calls
`update_shapes(t)`, then renders the (now mutated) shapes.  The result is the
new shape state together with the circle ellipse boxes that were drawn. -/
def GeometricBackground.draw (W H : ℚ) (sinA cosA : ℚ → ℚ)
    (drawsFor : ℕ → ℚ × ℚ) (t : ℚ) (shapes : List Shape) :
    List Shape × List (ℚ × ℚ × ℚ × ℚ) :=
  let shapes' := update_shapes W H sinA cosA drawsFor t shapes
  (shapes', shapes'.filterMap circleBox)

/-! ### `teens.py` — `wrap_text_to_fit` (lines 261-282)

`draw.textbbox` is a font metric from the imaging library; it enters the
embedding as an abstract width function `wfn`. -/

/-- The word loop of `wrap_text_to_fit`. -/
def wrapFitLoop (wfn : List Char → ℕ) (maxWidth : ℕ) :
    List (List Char) → List (List Char) → List (List Char) → List (List Char)
  | [], cur, lines => if cur = [] then lines else lines ++ [sjoin cur]
  | w :: ws, cur, lines =>
    if wfn (sjoin (cur ++ [w])) ≤ maxWidth then
      wrapFitLoop wfn maxWidth ws (cur ++ [w]) lines
    else
      if cur = [] then wrapFitLoop wfn maxWidth ws [w] lines
      else wrapFitLoop wfn maxWidth ws [w] (lines ++ [sjoin cur])

/-- `wrap_text_to_fit(text, font, max_width, draw)`. -/
def wrap_text_to_fit (wfn : List Char → ℕ) (maxWidth : ℕ)
    (text : List Char) : List (List Char) :=
  wrapFitLoop wfn maxWidth (pyWords text) [] []

/-! ### `teens.py` — the frame loop of `generate_quote_video` (lines 285-598) -/

/-- The typewriter count of `generate_quote_video`:
`min(int((t / reveal_time) * total_chars), total_chars)` with
`reveal_time = 7`. -/
def teensCharsToShow (totalChars : ℕ) (t : ℚ) : ℕ :=
  min (pyTrunc ((t / 7) * totalChars)).toNat totalChars

/-- What the embedding records of one frame of `generate_quote_video`. -/
structure TeensFrame where
  idx : ℕ
  t : ℚ
  visibleText : List Char
  textLines : List (List Char)
  circleBoxes : List (ℚ × ℚ × ℚ × ℚ)
  deriving Repr

/-- The body of the `for i in range(DURATION * FPS)` loop, threading the
mutable `GeometricBackground` state from frame to frame. -/
def quoteFrameLoop (wfn : List Char → ℕ) (sinA cosA : ℚ → ℚ)
    (drawsFor : ℕ → ℕ → ℚ × ℚ) (quote : List Char) (textMaxWidth : ℕ) :
    List ℕ → List Shape → List TeensFrame
  | [], _ => []
  | i :: rest, bg =>
    let t : ℚ := (i : ℚ) / 24
    let (bg', boxes) :=
      GeometricBackground.draw 1080 1920 sinA cosA (drawsFor i) t bg
    let charsToShow := teensCharsToShow quote.length t
    let visible := quote.take charsToShow
    { idx := i, t, visibleText := visible
      textLines := wrap_text_to_fit wfn textMaxWidth visible
      circleBoxes := boxes } :: quoteFrameLoop wfn sinA cosA drawsFor quote
        textMaxWidth rest bg'

/-- The frame-producing part of `generate_quote_video(quote_text, author_name,
bg_style)` for the geometric style: `W, H = 1080, 1920`, `DURATION = 10`,
`FPS = 24`, one frame per index in `range(DURATION * FPS)`.  `shapes0` is the
state the `GeometricBackground.__init__` random generation produced. -/
def generate_quote_video (wfn : List Char → ℕ) (sinA cosA : ℚ → ℚ)
    (drawsFor : ℕ → ℕ → ℚ × ℚ) (quote : List Char) (textMaxWidth : ℕ)
    (shapes0 : List Shape) : List TeensFrame :=
  quoteFrameLoop wfn sinA cosA drawsFor quote textMaxWidth
    (List.range (10 * 24)) shapes0

/-! ### `254myth.py` — `Video254Factory` (lines 27-113) -/

/-- An image asset, reduced to its dimensions. -/
structure Img where
  w : ℕ
  h : ℕ
  deriving Repr, DecidableEq

/-- `Video254Factory.load_poster` (lines 31-40): on any fetch/decode failure
the `except` arm shows an error and returns `None`; on success the poster is
resized to `1080×1920`. -/
def load_poster (fetch : Option Img) : Option Img :=
  match fetch with
  | some _ => some { w := 1080, h := 1920 }
  | none => none

/-- One exported video of the pack: its message and animation name. -/
structure PackVideo where
  message : List Char
  animation : List Char
  deriving Repr, DecidableEq

/-- `Video254Factory.generate_video_pack(messages, animations)` (lines
81-113): if `load_poster` fails the function returns `None` immediately and
no video is produced; otherwise one video per `zip(messages, animations)`
entry. -/
def generate_video_pack (fetch : Option Img) (messages animations : List (List Char)) :
    Option (List PackVideo) :=
  match load_poster fetch with
  | none => none
  | some _ =>
    some ((messages.zip animations).map fun p =>
      { message := p.1, animation := p.2 })

/-! ### `ytdl.py` — `format_time_full` / `parse_time_to_seconds` (lines 102-126) -/

/-- One decimal digit as a character. -/
def digitChar : ℕ → Char
  | 0 => '0' | 1 => '1' | 2 => '2' | 3 => '3' | 4 => '4'
  | 5 => '5' | 6 => '6' | 7 => '7' | 8 => '8' | 9 => '9'
  | _ => '*'

/-- Decimal digit test. -/
def isDig (c : Char) : Bool :=
  c = '0' || c = '1' || c = '2' || c = '3' || c = '4' ||
  c = '5' || c = '6' || c = '7' || c = '8' || c = '9'

/-- Numeric value of a digit character. -/
def digVal (c : Char) : ℕ := c.toNat - 48

/-- Decimal rendering of a positive natural, most-significant digit first;
`fuel` bounds the recursion (`n ≤ fuel` suffices). -/
def natReprAux : ℕ → ℕ → List Char
  | 0, _ => []
  | fuel + 1, n =>
    if n = 0 then [] else natReprAux fuel (n / 10) ++ [digitChar (n % 10)]

/-- Python `str(n)` for a natural number. -/
def natRepr (n : ℕ) : List Char :=
  if n = 0 then ['0'] else natReprAux n n

/-- Python `f"{n:02d}"` for `0 ≤ n`: pad to two digits with a leading zero. -/
def pad2 (n : ℕ) : List Char :=
  if n < 10 then '0' :: natRepr n else natRepr n

/-- `format_time_full(total_seconds)`: `H:MM:SS` when there are hours,
`M:SS` otherwise. -/
def format_time_full (totalSeconds : ℕ) : List Char :=
  let hours := totalSeconds / 3600
  let minutes := totalSeconds % 3600 / 60
  let seconds := totalSeconds % 60
  if hours > 0 then
    natRepr hours ++ ':' :: pad2 minutes ++ ':' :: pad2 seconds
  else
    natRepr minutes ++ ':' :: pad2 seconds

/-- `s.split(':')` on a character list (keeps empty pieces, like Python). -/
def splitColonAux : List Char → List Char → List (List Char)
  | [], acc => [acc.reverse]
  | c :: cs, acc =>
    if c = ':' then acc.reverse :: splitColonAux cs []
    else splitColonAux cs (c :: acc)

/-- Python `time_str.split(':')`. -/
def splitColon (s : List Char) : List (List Char) := splitColonAux s []

/-- Python `s.strip()`. -/
def pyStrip (s : List Char) : List Char :=
  ((s.dropWhile isSpaceChar).reverse.dropWhile isSpaceChar).reverse

/-- Digit-string value, most-significant digit first. -/
def digitsVal (l : List Char) : ℕ :=
  l.foldl (fun a c => a * 10 + digVal c) 0

/-- The all-digits core of Python `int(s)`: `none` models `ValueError`. -/
def natCore (l : List Char) : Option ℕ :=
  if l ≠ [] ∧ l.all isDig then some (digitsVal l) else none

/-- Python `int(s)`: strips surrounding whitespace, allows one sign, then
requires a non-empty digit string. -/
def pyInt (s : List Char) : Option ℤ :=
  match pyStrip s with
  | [] => none
  | c :: cs =>
    if c = '-' then (natCore cs).map fun n => -(n : ℤ)
    else if c = '+' then (natCore cs).map fun n => (n : ℤ)
    else (natCore (c :: cs)).map fun n => (n : ℤ)

/-- The `try` body of `parse_time_to_seconds`: `none` models an exception
escaping to the `except` arm. -/
def parse_time_core (timeStr : List Char) : Option ℤ :=
  let parts := splitColon (pyStrip timeStr)
  match parts with
  | [a, b] => do
    let m ← pyInt a
    let s ← pyInt b
    pure (m * 60 + s)
  | [a, b, c] => do
    let h ← pyInt a
    let m ← pyInt b
    let s ← pyInt c
    pure (h * 3600 + m * 60 + s)
  | _ => pyInt (parts.headD [])

/-- `parse_time_to_seconds(time_str)`: the `except` arm returns `0`. -/
def parse_time_to_seconds (timeStr : List Char) : ℤ :=
  (parse_time_core timeStr).getD 0

/-! ## Lemmas about the reveal loop `showLines` -/

theorem showLines_length (c : ℤ) (lines : List (List Char)) :
    ∀ used : ℤ, (showLines c lines used).length = lines.length := by
  induction lines with
  | nil => intro used; rfl
  | cons line rest ih =>
    intro used
    unfold showLines
    split
    · simpa using ih used
    · split
      · simpa using ih (used + line.length)
      · simpa using ih c

theorem showLines_forall₂ (c : ℤ) (lines : List (List Char)) :
    ∀ used : ℤ, List.Forall₂ (fun s l => ∃ k, s = l.take k)
      (showLines c lines used) lines := by
  induction lines with
  | nil => intro used; exact List.Forall₂.nil
  | cons line rest ih =>
    intro used
    unfold showLines
    split
    · exact List.Forall₂.cons ⟨0, by simp⟩ (ih used)
    · split
      · exact List.Forall₂.cons ⟨line.length, by simp⟩ (ih (used + line.length))
      · exact List.Forall₂.cons ⟨(c - used).toNat, rfl⟩ (ih c)

theorem showLines_sum (c : ℤ) (lines : List (List Char)) :
    ∀ used : ℤ, ((showLines c lines used).map List.length).sum =
      min (c - used).toNat ((lines.map List.length).sum) := by
  induction lines with
  | nil => intro used; simp [showLines]
  | cons line rest ih =>
    intro used
    unfold showLines
    split
    · rename_i hge
      simp only [List.map_cons, List.sum_cons, List.length_nil, ih used]
      omega
    · rename_i hlt
      split
      · rename_i hrem
        simp only [List.map_cons, List.sum_cons, ih (used + line.length)]
        omega
      · rename_i hrem
        simp only [List.map_cons, List.sum_cons, ih c, List.length_take]
        omega

/-! ## Lemmas about `sjoin` and the word loops of the two wrap functions -/

theorem sjoin_append {a b : List (List Char)} (ha : a ≠ []) (hb : b ≠ []) :
    sjoin (a ++ b) = sjoin a ++ ' ' :: sjoin b := by
  induction a with
  | nil => exact absurd rfl ha
  | cons x a ih =>
    cases a with
    | nil =>
      cases b with
      | nil => exact absurd rfl hb
      | cons y b => rfl
    | cons z a' =>
      have hstep := ih (by simp)
      show sjoin (x :: ((z :: a') ++ b)) = sjoin (x :: z :: a') ++ ' ' :: sjoin b
      have h1 : sjoin (x :: ((z :: a') ++ b)) = x ++ ' ' :: sjoin ((z :: a') ++ b) := rfl
      rw [h1, hstep]
      simp [sjoin]

theorem sjoin_map_sjoin :
    ∀ gs : List (List (List Char)), (∀ g ∈ gs, g ≠ []) →
      sjoin (gs.map sjoin) = sjoin gs.join := by
  intro gs
  induction gs with
  | nil => intro _; rfl
  | cons g gs ih =>
    intro h
    cases gs with
    | nil => simp [sjoin]
    | cons g2 gs2 =>
      have hg : g ≠ [] := h g (by simp)
      have hg2 : g2 ≠ [] := h g2 (by simp)
      have hjoin : (g2 :: gs2).join ≠ [] := by
        cases g2 with
        | nil => exact absurd rfl hg2
        | cons c w => simp
      have hmap : ((g2 :: gs2).map sjoin) ≠ [] := by simp
      have h1 : sjoin ((g :: g2 :: gs2).map sjoin) =
          sjoin g ++ ' ' :: sjoin ((g2 :: gs2).map sjoin) := rfl
      rw [h1, ih (fun g' hg' => h g' (by simp [hg']))]
      have h2 : (g :: g2 :: gs2).join = g ++ (g2 :: gs2).join := by simp
      rw [h2, sjoin_append hg hjoin]

/-- The word loop of `wrap_text` groups the incoming words into non-empty
word groups, emitting each group joined by single spaces: no word is ever
dropped or duplicated. -/
theorem wrapLoop_spec (fs mw : ℕ) :
    ∀ ws cur lines : List (List Char),
      ∃ gs : List (List (List Char)),
        wrapLoop fs mw ws cur lines = lines ++ gs.map sjoin
        ∧ gs.join = cur ++ ws ∧ ∀ g ∈ gs, g ≠ [] := by
  intro ws
  induction ws with
  | nil =>
    intro cur lines
    by_cases hc : cur = []
    · exact ⟨[], by simp [wrapLoop, hc], by simp [hc], by simp⟩
    · exact ⟨[cur], by simp [wrapLoop, hc], by simp, by simp [hc]⟩
  | cons w ws ih =>
    intro cur lines
    unfold wrapLoop
    by_cases hover : lineWidthEstimate (sjoin (cur ++ [w])) fs > mw
    · rw [if_pos hover]
      by_cases hone : (cur ++ [w]).length = 1
      · have hc : cur = [] := by
          cases cur with
          | nil => rfl
          | cons a l => simp at hone
        rw [if_pos hone]
        obtain ⟨gs, h1, h2, h3⟩ := ih [] (lines ++ [w])
        refine ⟨[w] :: gs, ?_, ?_, ?_⟩
        · simp [h1, sjoin]
        · simp [h2, hc]
        · intro g hg
          rcases List.mem_cons.mp hg with hg | hg
          · simp [hg]
          · exact h3 g hg
      · rw [if_neg hone]
        have hc : cur ≠ [] := by
          intro h
          rw [h] at hone
          simp at hone
        obtain ⟨gs, h1, h2, h3⟩ := ih [w] (lines ++ [sjoin cur])
        refine ⟨cur :: gs, ?_, ?_, ?_⟩
        · simp [h1]
        · simp [h2]
        · intro g hg
          rcases List.mem_cons.mp hg with hg | hg
          · rw [hg]
            exact hc
          · exact h3 g hg
    · rw [if_neg hover]
      obtain ⟨gs, h1, h2, h3⟩ := ih (cur ++ [w]) lines
      exact ⟨gs, h1, by simp [h2], h3⟩

/-- Joining the output of `wrap_text` with single spaces gives the input's
words joined by single spaces: wrapping normalizes whitespace but loses no
characters of any word. -/
theorem sjoin_wrap_text (fs mw : ℕ) (t : List Char) :
    sjoin (wrap_text fs mw t) = sjoin (pyWords t) := by
  obtain ⟨gs, h1, h2, h3⟩ := wrapLoop_spec fs mw (pyWords t) [] []
  unfold wrap_text
  rw [h1]
  simp only [List.nil_append]
  rw [sjoin_map_sjoin gs h3, h2]
  simp

/-- In the hold phase (`progress > 0.7`) `apply_typing_effect` returns the
fully wrapped lines. -/
theorem apply_typing_effect_hold (fs w : ℕ) (t : List Char) {p : ℚ}
    (hp : 7/10 < p) :
    apply_typing_effect fs w t p = wrap_text fs (w * 85 / 100) t := by
  simp only [apply_typing_effect, if_neg (not_le.mpr hp)]

/-- Every line `wrap_text` emits either fits the width estimate or is a
single input word (which may alone exceed the width). -/
theorem wrapLoop_fits (fs mw : ℕ) (Wds : List (List Char)) :
    ∀ ws cur lines : List (List Char),
      (∀ l ∈ lines, lineWidthEstimate l fs ≤ mw ∨ l ∈ Wds) →
      (cur = [] ∨ lineWidthEstimate (sjoin cur) fs ≤ mw ∨ ∃ w ∈ Wds, cur = [w]) →
      (∀ w ∈ ws, w ∈ Wds) →
      ∀ l ∈ wrapLoop fs mw ws cur lines,
        lineWidthEstimate l fs ≤ mw ∨ l ∈ Wds := by
  intro ws
  induction ws with
  | nil =>
    intro cur lines hlines hcur _
    unfold wrapLoop
    by_cases hc : cur = []
    · rw [if_pos hc]
      exact hlines
    · rw [if_neg hc]
      intro l hl
      rcases List.mem_append.mp hl with hl | hl
      · exact hlines l hl
      · have hl' : l = sjoin cur := by simpa using hl
        subst hl'
        rcases hcur with h | h | ⟨w, hwW, hw⟩
        · exact absurd h hc
        · exact Or.inl h
        · subst hw
          exact Or.inr hwW
  | cons w ws ih =>
    intro cur lines hlines hcur hws
    have hwW : w ∈ Wds := hws w (by simp)
    have hws' : ∀ v ∈ ws, v ∈ Wds := fun v hv => hws v (by simp [hv])
    unfold wrapLoop
    by_cases hover : lineWidthEstimate (sjoin (cur ++ [w])) fs > mw
    · rw [if_pos hover]
      by_cases hone : (cur ++ [w]).length = 1
      · rw [if_pos hone]
        apply ih [] (lines ++ [w]) ?_ (Or.inl rfl) hws'
        intro l hl
        rcases List.mem_append.mp hl with hl | hl
        · exact hlines l hl
        · have : l = w := by simpa using hl
          subst this
          exact Or.inr hwW
      · rw [if_neg hone]
        have hc : cur ≠ [] := by
          intro h
          rw [h] at hone
          simp at hone
        apply ih [w] (lines ++ [sjoin cur]) ?_ ?_ hws'
        · intro l hl
          rcases List.mem_append.mp hl with hl | hl
          · exact hlines l hl
          · have hl' : l = sjoin cur := by simpa using hl
            subst hl'
            rcases hcur with h | h | ⟨v, hvW, hv⟩
            · exact absurd h hc
            · exact Or.inl h
            · subst hv
              exact Or.inr hvW
        · exact Or.inr (Or.inr ⟨w, hwW, rfl⟩)
    · rw [if_neg hover]
      apply ih (cur ++ [w]) lines hlines ?_ hws'
      exact Or.inr (Or.inl (not_lt.mp hover))

/-- The same dichotomy for `teens.py`'s `wrap_text_to_fit`, for an arbitrary
font-metric width function. -/
theorem wrapFitLoop_fits (wfn : List Char → ℕ) (mw : ℕ)
    (Wds : List (List Char)) :
    ∀ ws cur lines : List (List Char),
      (∀ l ∈ lines, wfn l ≤ mw ∨ l ∈ Wds) →
      (cur = [] ∨ wfn (sjoin cur) ≤ mw ∨ ∃ w ∈ Wds, cur = [w]) →
      (∀ w ∈ ws, w ∈ Wds) →
      ∀ l ∈ wrapFitLoop wfn mw ws cur lines, wfn l ≤ mw ∨ l ∈ Wds := by
  intro ws
  induction ws with
  | nil =>
    intro cur lines hlines hcur _
    unfold wrapFitLoop
    by_cases hc : cur = []
    · rw [if_pos hc]
      exact hlines
    · rw [if_neg hc]
      intro l hl
      rcases List.mem_append.mp hl with hl | hl
      · exact hlines l hl
      · have hl' : l = sjoin cur := by simpa using hl
        subst hl'
        rcases hcur with h | h | ⟨w, hwW, hw⟩
        · exact absurd h hc
        · exact Or.inl h
        · subst hw
          exact Or.inr hwW
  | cons w ws ih =>
    intro cur lines hlines hcur hws
    have hwW : w ∈ Wds := hws w (by simp)
    have hws' : ∀ v ∈ ws, v ∈ Wds := fun v hv => hws v (by simp [hv])
    unfold wrapFitLoop
    by_cases hfit : wfn (sjoin (cur ++ [w])) ≤ mw
    · rw [if_pos hfit]
      exact ih (cur ++ [w]) lines hlines (Or.inr (Or.inl hfit)) hws'
    · rw [if_neg hfit]
      by_cases hc : cur = []
      · rw [if_pos hc]
        exact ih [w] lines hlines (Or.inr (Or.inr ⟨w, hwW, rfl⟩)) hws'
      · rw [if_neg hc]
        apply ih [w] (lines ++ [sjoin cur]) ?_
          (Or.inr (Or.inr ⟨w, hwW, rfl⟩)) hws'
        intro l hl
        rcases List.mem_append.mp hl with hl | hl
        · exact hlines l hl
        · have hl' : l = sjoin cur := by simpa using hl
          subst hl'
          rcases hcur with h | h | ⟨v, hvW, hv⟩
          · exact absurd h hc
          · exact Or.inl h
          · subst hv
            exact Or.inr hvW

/-! ## Claim theorems -/

/-- C1: for every positive duration `D` (seconds), one call of the
frame-generation loop appends exactly `D × F` frames (`F = 24` in both
sources), one per frame index in `[0, D × F)`: mapping each produced frame to
its frame index gives exactly `List.range (D * 24)`, in `simple.py`'s
`generate_typing_video` as well as in the frame loop of `teens.py`'s
`generate_quote_video`. -/
theorem C1_frame_count_is_duration_times_fps (fetch : Option (ℕ × ℕ))
    (text : List Char) (duration width height : ℕ) (hd : 0 < duration)
    (wfn : List Char → ℕ) (sinA cosA : ℚ → ℚ) (drawsFor : ℕ → ℕ → ℚ × ℚ)
    (quote : List Char) (tmw : ℕ) (shapes0 : List Shape) :
    ((generate_typing_video fetch text duration width height).map
        SimpleFrame.frameIdx = List.range (duration * 24)
      ∧ (generate_typing_video fetch text duration width height).length =
        duration * 24)
    ∧ ((generate_quote_video wfn sinA cosA drawsFor quote tmw shapes0).map
        TeensFrame.idx = List.range (10 * 24)
      ∧ (generate_quote_video wfn sinA cosA drawsFor quote tmw shapes0).length =
        10 * 24) := by
  have hsimple : (generate_typing_video fetch text duration width height).map
      SimpleFrame.frameIdx = List.range (duration * 24) := by
    unfold generate_typing_video
    rw [List.map_map]
    exact List.map_id'' (fun i => rfl) _
  have hteens : ∀ (l : List ℕ) (bg : List Shape),
      (quoteFrameLoop wfn sinA cosA drawsFor quote tmw l bg).map
        TeensFrame.idx = l := by
    intro l
    induction l with
    | nil => intro bg; rfl
    | cons i rest ih =>
      intro bg
      simp only [quoteFrameLoop, List.map_cons, ih]
  refine ⟨⟨hsimple, ?_⟩, ⟨hteens _ _, ?_⟩⟩
  · have := congrArg List.length hsimple
    simpa using this
  · have := congrArg List.length (hteens (List.range (10 * 24)) shapes0)
    simpa [generate_quote_video] using this

/-- Witness for C1 at `duration = 5`. -/
theorem C1_frame_count_is_duration_times_fps_witness :
    (generate_typing_video none [] 5 720 1280).map SimpleFrame.frameIdx =
      List.range (5 * 24) :=
  (C1_frame_count_is_duration_times_fps none [] 5 720 1280 (by decide)
    (fun _ => 0) (fun _ => 0) (fun _ => 0) (fun _ _ => (0, 0)) [] 0 []).1.1

/-- C7: for the empty input text, the text layer of every frame is empty:
`apply_typing_effect` yields no lines at any progress value, and every frame
of `generate_typing_video` carries an empty `shownLines` list for the whole
duration. -/
theorem C7_empty_text_gives_empty_frames (fontSize width : ℕ) (p : ℚ)
    (fetch : Option (ℕ × ℕ)) (duration w h : ℕ) :
    apply_typing_effect fontSize width [] p = []
    ∧ (generate_typing_video fetch [] duration w h).map SimpleFrame.shownLines
      = List.replicate (duration * 24) [] := by
  have hwrap : ∀ fs mw : ℕ, wrap_text fs mw [] = [] := fun _ _ => rfl
  have happly : ∀ (fs wd : ℕ) (q : ℚ), apply_typing_effect fs wd [] q = [] := by
    intro fs wd q
    simp only [apply_typing_effect, hwrap]
    split <;> rfl
  refine ⟨happly fontSize width p, ?_⟩
  have hlen : (generate_typing_video fetch [] duration w h).length =
      duration * 24 := by
    simp [generate_typing_video]
  rw [List.eq_replicate_iff]
  refine ⟨by simpa using hlen, ?_⟩
  intro x hx
  simp only [generate_typing_video, List.map_map, List.mem_map,
    Function.comp] at hx
  obtain ⟨i, _, hi⟩ := hx
  rw [← hi]
  exact happly _ _ _

/-- C10: for every input text and progress in `[0, 1]`,
`apply_typing_effect` returns exactly one entry per wrapped line of the full
text, and each entry is a (possibly empty) prefix of the corresponding full
line (`s = l.take k` for some `k`). -/
theorem C10_typing_effect_entries_are_prefixes (fontSize width : ℕ)
    (text : List Char) (p : ℚ) (h0 : 0 ≤ p) (h1 : p ≤ 1) :
    (apply_typing_effect fontSize width text p).length =
      (wrap_text fontSize (width * 85 / 100) text).length
    ∧ List.Forall₂ (fun s l => ∃ k, s = l.take k)
      (apply_typing_effect fontSize width text p)
      (wrap_text fontSize (width * 85 / 100) text) := by
  unfold apply_typing_effect
  split
  · exact ⟨showLines_length _ _ _, showLines_forall₂ _ _ _⟩
  · exact ⟨rfl, by
      rw [List.forall₂_same]
      intro l _
      exact ⟨l.length, (List.take_length l).symm⟩⟩

/-! ## The visible-character count of the reveal phase -/

/-- Total character count of the wrapped lines of `text` (the
`total_chars` of `apply_typing_effect`). -/
def totalChars (fontSize width : ℕ) (text : List Char) : ℕ :=
  ((wrap_text fontSize (width * 85 / 100) text).map List.length).sum

/-- Number of characters visible on the frame rendered at `progress`. -/
def visibleChars (fontSize width : ℕ) (text : List Char) (p : ℚ) : ℕ :=
  ((apply_typing_effect fontSize width text p).map List.length).sum

theorem visibleChars_reveal (fs w : ℕ) (t : List Char) {p : ℚ}
    (h0 : 0 ≤ p) (h7 : p ≤ 7/10) :
    visibleChars fs w t p =
      (⌊((totalChars fs w t : ℚ) * p * 10) / 7⌋).toNat ⊓ totalChars fs w t := by
  have harg : (0:ℚ) ≤ (totalChars fs w t : ℚ) * (p / (7/10)) := by positivity
  simp only [visibleChars, apply_typing_effect, if_pos h7]
  rw [showLines_sum]
  rw [show pyTrunc ((((wrap_text fs (w * 85 / 100) t).map List.length).sum : ℚ)
      * (p / (7/10))) = ⌊((totalChars fs w t : ℚ) * p * 10) / 7⌋ from ?_]
  · rw [sub_zero]
    rfl
  · rw [pyTrunc_of_nonneg (by exact harg)]
    congr 1
    rw [totalChars]
    ring

theorem visibleChars_mono (fs w : ℕ) (t : List Char) {p q : ℚ}
    (h0 : 0 ≤ p) (hpq : p ≤ q) (h7 : q ≤ 7/10) :
    visibleChars fs w t p ≤ visibleChars fs w t q := by
  rw [visibleChars_reveal fs w t h0 (le_trans hpq h7),
    visibleChars_reveal fs w t (le_trans h0 hpq) h7]
  have hfl : ⌊((totalChars fs w t : ℚ) * p * 10) / 7⌋ ≤
      ⌊((totalChars fs w t : ℚ) * q * 10) / 7⌋ := by
    apply Int.floor_le_floor
    gcongr
  exact min_le_min (Int.toNat_le_toNat hfl) le_rfl

theorem teensCharsToShow_mono (n : ℕ) {t1 t2 : ℚ} (h0 : 0 ≤ t1)
    (h12 : t1 ≤ t2) : teensCharsToShow n t1 ≤ teensCharsToShow n t2 := by
  have h02 : (0:ℚ) ≤ t2 := le_trans h0 h12
  unfold teensCharsToShow
  rw [pyTrunc_of_nonneg
      (mul_nonneg (div_nonneg h0 (by norm_num)) (Nat.cast_nonneg n)),
    pyTrunc_of_nonneg
      (mul_nonneg (div_nonneg h02 (by norm_num)) (Nat.cast_nonneg n))]
  have hfl : ⌊t1 / 7 * (n:ℚ)⌋ ≤ ⌊t2 / 7 * (n:ℚ)⌋ := by
    apply Int.floor_le_floor
    gcongr
  exact min_le_min (Int.toNat_le_toNat hfl) le_rfl

/-- C4: for every non-empty text, if consecutive frames `i` and `i+1` of an
`N`-frame video both lie in the reveal phase (their `progress` values
`(i+1)/N` and `(i+2)/N` are `≤ 0.7`), the visible-character count does not
decrease from frame `i` to frame `i+1`; moreover during the reveal phase the
count is the linear law `⌊total_chars × (progress / 0.7)⌋` (capped at
`total_chars`), i.e. proportional to the elapsed fraction of the reveal
phase up to the floor.  The typewriter count of `teens.py`'s frame loop is
likewise monotone in elapsed time `t`. -/
theorem C4_visible_chars_monotone_and_linear (fs w : ℕ) (text : List Char)
    (hne : text ≠ []) (N i : ℕ) (hN : 0 < N)
    (hi : ((i:ℚ) + 1) / N ≤ 7/10) (hi1 : ((i:ℚ) + 2) / N ≤ 7/10)
    (n : ℕ) (t1 t2 : ℚ) (ht0 : 0 ≤ t1) (ht : t1 ≤ t2) :
    visibleChars fs w text (((i:ℚ) + 1) / N) ≤
      visibleChars fs w text (((i:ℚ) + 2) / N)
    ∧ (∀ p : ℚ, 0 ≤ p → p ≤ 7/10 →
        visibleChars fs w text p =
          (⌊((totalChars fs w text : ℚ) * p * 10) / 7⌋).toNat ⊓
            totalChars fs w text)
    ∧ teensCharsToShow n t1 ≤ teensCharsToShow n t2 := by
  have hNQ : (0:ℚ) < N := by exact_mod_cast hN
  refine ⟨?_, fun p hp0 hp7 => visibleChars_reveal fs w text hp0 hp7,
    teensCharsToShow_mono n ht0 ht⟩
  have hle : ((i:ℚ) + 1) / N ≤ ((i:ℚ) + 2) / N := by
    gcongr
    linarith
  exact visibleChars_mono fs w text (by positivity) hle hi1

/-- Witness for C4: concrete text, `N = 240`, frames `10` and `11`. -/
theorem C4_visible_chars_monotone_and_linear_witness :
    visibleChars 72 720 ('a' :: []) ((((10:ℕ):ℚ) + 1) / ((240:ℕ):ℚ)) ≤
      visibleChars 72 720 ('a' :: []) ((((10:ℕ):ℚ) + 2) / ((240:ℕ):ℚ)) :=
  (C4_visible_chars_monotone_and_linear 72 720 ('a' :: []) (by decide)
    240 10 (by decide) (by norm_num) (by norm_num) 5 0 1 (by norm_num)
    (by norm_num)).1

/-! ## Lemmas about `ratMod` and repeated background updates -/

theorem ratMod_small {a m : ℚ} (h0 : 0 ≤ a) (h1 : a < m) : ratMod a m = a := by
  have hm : 0 < m := lt_of_le_of_lt h0 h1
  unfold ratMod
  rw [ratFloor_eq_floor]
  have hfl : ⌊a / m⌋ = 0 := by
    rw [Int.floor_eq_zero_iff]
    exact ⟨div_nonneg h0 hm.le, (div_lt_one hm).mpr h1⟩
  rw [hfl]
  simp

theorem ratMod_add_ratMod (a s m : ℚ) (hm : m ≠ 0) :
    ratMod (ratMod a m + s) m = ratMod (a + s) m := by
  unfold ratMod
  rw [ratFloor_eq_floor, ratFloor_eq_floor, ratFloor_eq_floor]
  have h1 : (a - m * ⌊a / m⌋ + s) / m = (a + s) / m - ⌊a / m⌋ := by
    field_simp
    ring
  rw [h1, Int.floor_sub_int]
  push_cast
  ring

/-- The state of a shape after a sequence of `update_shapes` calls at the
given times (the per-call lazy-draw pair held fixed). -/
def shapeCalls (W H : ℚ) (sinA cosA : ℚ → ℚ) (draws : ℚ × ℚ)
    (ts : List ℚ) (s : Shape) : Shape :=
  ts.foldl (fun sh t => updateShape W H sinA cosA t draws sh) s

theorem circle_x_after_calls (W H : ℚ) (hW : W ≠ 0) (sinA cosA : ℚ → ℚ)
    (draws : ℚ × ℚ) :
    ∀ (ts : List ℚ) (x y size sx sy : ℚ), ts ≠ [] →
      (shapeCalls W H sinA cosA draws ts (Shape.circle x y size sx sy)).xCoord
        = ratMod (x + ts.length * sx) W := by
  intro ts
  induction ts with
  | nil => intro x y size sx sy h; exact absurd rfl h
  | cons t ts ih =>
    intro x y size sx sy _
    have hstep : shapeCalls W H sinA cosA draws (t :: ts)
        (Shape.circle x y size sx sy)
      = shapeCalls W H sinA cosA draws ts
        (Shape.circle (ratMod (x + sx) W) (ratMod (y + sy) H)
          (size * (1 + (1/10) * sinA (t * 2))) sx sy) := rfl
    rw [hstep]
    cases ts with
    | nil => simp [shapeCalls, Shape.xCoord]
    | cons t2 ts2 =>
      rw [ih _ _ _ _ _ (by simp), ratMod_add_ratMod _ _ _ hW]
      congr 1
      push_cast [List.length_cons]
      ring

/-- C2 counterexample: `GeometricBackground.draw` is not side-effect-free.
Starting from a single circle at the origin with `speed_x = 1`, drawing the
background once at `t = 0` emits the ellipse box with left edge `-99`, but
drawing it a second time with the very same arguments emits `-98`: each call
mutates the stored shape positions, so earlier calls change the result of
later ones and the frame content depends on the number of prior calls, not
only on the elapsed-time fraction. -/
theorem C2_counterexample_draw_mutates_state :
    (GeometricBackground.draw 1080 1920 (fun _ => 0) (fun _ => 0)
        (fun _ => (0, 0)) 0
        ((GeometricBackground.draw 1080 1920 (fun _ => 0) (fun _ => 0)
          (fun _ => (0, 0)) 0 [Shape.circle 0 0 100 1 0]).1)).2
    ≠ (GeometricBackground.draw 1080 1920 (fun _ => 0) (fun _ => 0)
        (fun _ => (0, 0)) 0 [Shape.circle 0 0 100 1 0]).2 := by
  have h1 : updateShape 1080 1920 (fun _ => (0:ℚ)) (fun _ => (0:ℚ)) 0 (0, 0)
      (Shape.circle 0 0 100 1 0) = Shape.circle 1 0 100 1 0 := by
    simp only [updateShape]
    rw [show ratMod ((0:ℚ) + 1) 1080 = 1 from by
        rw [ratMod_small] <;> norm_num,
      show ratMod ((0:ℚ) + 0) 1920 = 0 from by
        rw [ratMod_small] <;> norm_num]
    norm_num
  have h2 : updateShape 1080 1920 (fun _ => (0:ℚ)) (fun _ => (0:ℚ)) 0 (0, 0)
      (Shape.circle 1 0 100 1 0) = Shape.circle 2 0 100 1 0 := by
    simp only [updateShape]
    rw [show ratMod ((1:ℚ) + 1) 1080 = 2 from by
        rw [ratMod_small] <;> norm_num,
      show ratMod ((0:ℚ) + 0) 1920 = 0 from by
        rw [ratMod_small] <;> norm_num]
    norm_num
  simp only [GeometricBackground.draw, update_shapes, List.mapIdx,
    List.mapIdx.go, h1, h2, circleBox, List.filterMap]
  intro hcontra
  have := List.head_eq_of_cons_eq hcontra
  rw [Prod.mk.injEq] at this
  have hx := this.1
  norm_num at hx

/-- C2 (amended): the `teens.py` background compositor is stateful, not
side-effect-free: every `GeometricBackground.draw` call advances the stored
shape positions, so after `k` update calls a circle with initial abscissa
`x` and horizontal speed `sx` sits at `(x + k·sx) mod W` — the drawn frame
depends on the number of prior calls, not only on `i/total_frames`.  Given
the shape state and the trig/random draws as explicit inputs, the update is
a pure function of them. -/
theorem C2_background_state_accumulates (W H : ℚ) (hW : W ≠ 0)
    (sinA cosA : ℚ → ℚ) (draws : ℚ × ℚ) (ts : List ℚ) (hts : ts ≠ [])
    (x y size sx sy : ℚ) :
    (shapeCalls W H sinA cosA draws ts (Shape.circle x y size sx sy)).xCoord
      = ratMod (x + ts.length * sx) W :=
  circle_x_after_calls W H hW sinA cosA draws ts x y size sx sy hts

/-- Witness for C2 (amended): two calls move the circle to `(0 + 2·1) % 1080`. -/
theorem C2_background_state_accumulates_witness :
    (shapeCalls 1080 1920 (fun _ => 0) (fun _ => 0) (0, 0) [0, 1]
        (Shape.circle 0 0 100 1 0)).xCoord
      = ratMod (0 + (([0, 1] : List ℚ).length : ℚ) * 1) 1080 :=
  C2_background_state_accumulates 1080 1920 (by norm_num) (fun _ => 0)
    (fun _ => 0) (0, 0) [0, 1] (by simp) 0 0 100 1 0

/-- C3 counterexample: in `254myth.py` a poster-fetch failure does abort the
whole generation: `load_poster` catches the exception but returns `None`,
and `generate_video_pack` then returns `None` immediately — no frame and no
video of the pack is produced, instead of substituting a fallback poster. -/
theorem C3_counterexample_poster_failure_aborts_pack :
    generate_video_pack none [('m' :: [])] [('s' :: [])] = none := rfl

/-- C3 (amended): in `simple.py` an asset failure is indeed caught and
replaced by a deterministic fallback — `load_logo` returns the drawn
placeholder on failure, every generated frame carries that fallback logo,
and the frame sequence keeps its full `duration × 24` length for every fetch
outcome.  In `254myth.py`, however, `load_poster` failure makes
`generate_video_pack` return `None` with no videos produced. -/
theorem C3_fallbacks_in_simple_but_pack_aborts (fetch : Option (ℕ × ℕ))
    (text : List Char) (duration width height : ℕ)
    (messages animations : List (List Char)) :
    load_logo none = { w := 120, h := 60, isFallback := true }
    ∧ (generate_typing_video fetch text duration width height).length =
      duration * 24
    ∧ (generate_typing_video none text duration width height).map
        SimpleFrame.logo =
      List.replicate (duration * 24) (load_logo none)
    ∧ generate_video_pack none messages animations = none := by
  refine ⟨rfl, by simp [generate_typing_video], ?_, rfl⟩
  rw [List.eq_replicate_iff]
  constructor
  · simp [generate_typing_video]
  · intro x hx
    simp only [generate_typing_video, List.map_map, List.mem_map,
      Function.comp] at hx
    obtain ⟨i, _, hi⟩ := hx
    rw [← hi]
    rfl

/-- C5 counterexample: for the input `"a  b"` (two spaces) the hold-phase
frame at `progress = 169/240 > 0.7` shows the single wrapped line `"a b"`,
whose concatenation is not the input text: wrapping rebuilds lines from the
whitespace-split words joined by single spaces, so the original whitespace is
not reproduced exactly. -/
theorem C5_counterexample_whitespace_not_exact :
    (7:ℚ)/10 < 169/240
    ∧ apply_typing_effect 72 720 ("a  b".toList) (169/240) = ["a b".toList]
    ∧ sjoin (apply_typing_effect 72 720 ("a  b".toList) (169/240)) ≠
      "a  b".toList := by
  have h710 : (7:ℚ)/10 < 169/240 := by norm_num
  have heq := apply_typing_effect_hold 72 720 ("a  b".toList) h710
  refine ⟨h710, ?_, ?_⟩
  · rw [heq]
    decide
  · rw [heq]
    decide

/-- C5 (amended): at every frame of the hold phase (`progress > 0.7`) the
shown lines are the fully wrapped lines of the input, and their
concatenation with single spaces equals the whitespace-normalized input
text — the input's words joined by single spaces (equal to the input itself
whenever the input's whitespace is already single spaces between words). -/
theorem C5_hold_phase_shows_normalized_text (fs w : ℕ) (t : List Char)
    (p : ℚ) (hp : 7/10 < p) :
    apply_typing_effect fs w t p = wrap_text fs (w * 85 / 100) t
    ∧ sjoin (apply_typing_effect fs w t p) = sjoin (pyWords t) := by
  have h := apply_typing_effect_hold fs w t hp
  exact ⟨h, by rw [h, sjoin_wrap_text]⟩

/-- Witness for C5 (amended) at `progress = 1`. -/
theorem C5_hold_phase_shows_normalized_text_witness :
    apply_typing_effect 72 720 ("a b".toList) 1 =
      wrap_text 72 (720 * 85 / 100) ("a b".toList) :=
  (C5_hold_phase_shows_normalized_text 72 720 ("a b".toList) 1 (by norm_num)).1

/-- C8 counterexample: a word wider than the limit is emitted as its own
line, which does not fit: in `simple.py` the 26-character word at font size
72 estimates to 936 pixels, above the 612-pixel limit, yet is returned as a
line; the same happens in `teens.py`'s `wrap_text_to_fit` (here with the
character-count metric and limit 3). -/
theorem C8_counterexample_long_word_overflows :
    (wrap_text 72 612 ("abcdefghijklmnopqrstuvwxyz".toList) =
        ["abcdefghijklmnopqrstuvwxyz".toList]
      ∧ lineWidthEstimate ("abcdefghijklmnopqrstuvwxyz".toList) 72 > 612)
    ∧ (wrap_text_to_fit List.length 3 ("abcdefgh".toList) =
        ["abcdefgh".toList]
      ∧ List.length ("abcdefgh".toList) > 3) := by
  refine ⟨⟨?_, ?_⟩, ?_, ?_⟩ <;> decide

/-- C8 (amended): every line returned by the word-wrap operations fits
within the maximum pixel width per the operation's font metric, or consists
of a single input word (a word that alone exceeds the limit becomes its own
overflowing line).  `wrap_text` uses the `len(line) * font.size // 2`
estimate; `wrap_text_to_fit` an arbitrary width function `wfn`. -/
theorem C8_wrapped_lines_fit_or_single_word (fs mw : ℕ) (t : List Char)
    (wfn : List Char → ℕ) (mw2 : ℕ) (t2 : List Char) (l l2 : List Char)
    (hl : l ∈ wrap_text fs mw t) (hl2 : l2 ∈ wrap_text_to_fit wfn mw2 t2) :
    (lineWidthEstimate l fs ≤ mw ∨ l ∈ pyWords t)
    ∧ (wfn l2 ≤ mw2 ∨ l2 ∈ pyWords t2) := by
  constructor
  · exact wrapLoop_fits fs mw (pyWords t) (pyWords t) [] []
      (by intro l hl; simp at hl) (Or.inl rfl) (fun w hw => hw) l hl
  · exact wrapFitLoop_fits wfn mw2 (pyWords t2) (pyWords t2) [] []
      (by intro l hl; simp at hl) (Or.inl rfl) (fun w hw => hw) l2 hl2

/-- Witness for C8 (amended) on concrete inputs. -/
theorem C8_wrapped_lines_fit_or_single_word_witness :
    (lineWidthEstimate ("HELLO WORLD".toList) 72 ≤ 612
      ∨ "HELLO WORLD".toList ∈ pyWords ("HELLO WORLD".toList))
    ∧ (List.length ("hi".toList) ≤ 30
      ∨ "hi".toList ∈ pyWords ("hi".toList)) :=
  C8_wrapped_lines_fit_or_single_word 72 612 ("HELLO WORLD".toList)
    List.length 30 ("hi".toList) ("HELLO WORLD".toList) ("hi".toList)
    (by decide) (by decide)

set_option maxRecDepth 4000 in
/-- The bounded arithmetic core of the `HELLO WORLD` example, checked by
evaluation: the capped floor count is within one of the rounded linear
estimate on every reveal-phase frame. -/
theorem helloWorldApprox : ∀ i : ℕ, i < 168 →
    ((((11 * (i + 1) / 168 : ℕ) : ℤ) ⊓ 11) -
      ((11 * i + 84) / 168 : ℕ)).natAbs ≤ 1 := by decide

set_option maxRecDepth 4000 in
/-- C6: for `text = "HELLO WORLD"`, `duration = 10 s`, `fps = 24`, reveal
fraction `0.7`: exactly 168 of the 240 frames lie in the reveal phase
(`progress ≤ 0.7`); on reveal-phase frame `i` the visible character count is
within one of `round(11 × min(i/168, 1))`; and every frame with index in
`168..239` shows `HELLO WORLD` in full as its single line. -/
theorem C6_hello_world_example :
    ((generate_typing_video none ("HELLO WORLD".toList) 10 720 1280).filter
        (fun f => decide (f.progress ≤ 7/10))).length = 168
    ∧ (∀ i : ℕ, i < 168 →
        ((visibleChars 72 720 ("HELLO WORLD".toList) (((i:ℚ) + 1) / 240) : ℤ)
          - round ((11:ℚ) * min ((i:ℚ) / 168) 1)).natAbs ≤ 1)
    ∧ (∀ i : ℕ, 168 ≤ i → i < 240 →
        apply_typing_effect 72 720 ("HELLO WORLD".toList) (((i:ℚ) + 1) / 240)
          = ["HELLO WORLD".toList]) := by
  refine ⟨?_, ?_, ?_⟩
  · -- reveal phase = 168 frames
    have hframes : generate_typing_video none ("HELLO WORLD".toList) 10 720 1280
        = (List.range (10 * 24)).map (fun (i : ℕ) =>
            create_frame (load_logo none) ("HELLO WORLD".toList)
              (((i:ℚ) + 1) / ((10 * 24 : ℕ) : ℚ)) i 720 1280) := rfl
    rw [hframes, ← List.countP_eq_length_filter, List.countP_map]
    rw [List.countP_congr (q := fun i => decide (i < 168)) ?_]
    · decide
    · intro i _
      simp only [Function.comp_apply, create_frame, decide_eq_true_eq]
      rw [show ((10 * 24 : ℕ) : ℚ) = 240 from by norm_num,
        div_le_iff (by norm_num : (0:ℚ) < 240),
        show (7:ℚ)/10 * 240 = 168 from by norm_num]
      constructor
      · intro h
        have h2 : (i + 1 : ℕ) ≤ 168 := by exact_mod_cast h
        omega
      · intro h
        have h2 : (i + 1 : ℕ) ≤ 168 := by omega
        exact_mod_cast h2
  · -- approximate linear growth on reveal-phase frames
    intro i hi
    have hile : (i : ℚ) ≤ 167 := by exact_mod_cast Nat.lt_succ_iff.mp hi
    have h7 : ((i:ℚ) + 1) / 240 ≤ 7/10 := by
      rw [div_le_iff (by norm_num : (0:ℚ) < 240)]
      linarith
    rw [visibleChars_reveal 72 720 ("HELLO WORLD".toList) (by positivity) h7]
    have hT : totalChars 72 720 ("HELLO WORLD".toList) = 11 := by decide
    rw [hT]
    push_cast
    have hfl : ⌊(11:ℚ) * (((i:ℚ) + 1) / 240) * 10 / 7⌋ =
        ((11 * (i + 1) / 168 : ℕ) : ℤ) := by
      rw [show (11:ℚ) * (((i:ℚ) + 1) / 240) * 10 / 7
          = (((11 * (i + 1) : ℕ) : ℤ) : ℚ) / ((168 : ℕ) : ℚ) from by
        push_cast
        ring]
      rw [Rat.floor_intCast_div_natCast]
      rw [show ((11 * (i + 1) : ℕ) : ℤ) = ((11 * (i + 1) : ℕ) : ℤ) from rfl]
      exact (Int.ofNat_div _ _).symm
    have hrd : round ((11:ℚ) * min ((i:ℚ) / 168) 1) =
        (((11 * i + 84) / 168 : ℕ) : ℤ) := by
      rw [min_eq_left (by
        rw [div_le_one (by norm_num : (0:ℚ) < 168)]
        linarith)]
      rw [round_eq]
      rw [show (11:ℚ) * ((i:ℚ) / 168) + 1/2
          = (((11 * i + 84 : ℕ) : ℤ) : ℚ) / ((168 : ℕ) : ℚ) from by
        push_cast
        ring]
      rw [Rat.floor_intCast_div_natCast]
      exact (Int.ofNat_div _ _).symm
    rw [hfl, hrd]
    simp only [Int.toNat_natCast]
    exact helloWorldApprox i hi
  · -- hold-phase frames show the full text
    intro i h168 h240
    have hp : (7:ℚ)/10 < ((i:ℚ) + 1) / 240 := by
      rw [lt_div_iff (by norm_num : (0:ℚ) < 240)]
      have : (168 : ℚ) ≤ (i : ℚ) := by exact_mod_cast h168
      linarith
    rw [apply_typing_effect_hold 72 720 ("HELLO WORLD".toList) hp]
    decide

/-- Witness for C6: frame 200 (a hold-phase frame) shows the full text. -/
theorem C6_hello_world_example_witness :
    apply_typing_effect 72 720 ("HELLO WORLD".toList) ((((200:ℕ):ℚ) + 1) / 240)
      = ["HELLO WORLD".toList] :=
  C6_hello_world_example.2.2 200 (by decide) (by decide)

/-- Witness for C10 at a concrete text and `progress = 0`. -/
theorem C10_typing_effect_entries_are_prefixes_witness :
    (apply_typing_effect 72 720 ('h' :: 'i' :: []) 0).length =
      (wrap_text 72 (720 * 85 / 100) ('h' :: 'i' :: [])).length :=
  (C10_typing_effect_entries_are_prefixes 72 720 ('h' :: 'i' :: []) 0
    (by decide) (by decide)).1

/-! ## Decimal formatting and parsing lemmas (for `ytdl.py`) -/

theorem natReprAux_zero : ∀ fuel : ℕ, natReprAux fuel 0 = [] := by
  intro fuel
  cases fuel with
  | zero => rfl
  | succ f => simp [natReprAux]

theorem digVal_digitChar {d : ℕ} (h : d < 10) : digVal (digitChar d) = d := by
  interval_cases d <;> rfl

theorem isDig_digitChar {d : ℕ} (h : d < 10) : isDig (digitChar d) = true := by
  interval_cases d <;> rfl

theorem isDig_cases {c : Char} (h : isDig c = true) :
    c = '0' ∨ c = '1' ∨ c = '2' ∨ c = '3' ∨ c = '4' ∨
    c = '5' ∨ c = '6' ∨ c = '7' ∨ c = '8' ∨ c = '9' := by
  simpa [isDig, Bool.or_eq_true, decide_eq_true_eq, or_assoc] using h

theorem isDig_not_space {c : Char} (h : isDig c = true) :
    isSpaceChar c = false := by
  rcases isDig_cases h with h|h|h|h|h|h|h|h|h|h <;> subst h <;> rfl

theorem isDig_ne_colon {c : Char} (h : isDig c = true) : c ≠ ':' := by
  rcases isDig_cases h with h|h|h|h|h|h|h|h|h|h <;> subst h <;> decide

theorem isDig_ne_minus {c : Char} (h : isDig c = true) : c ≠ '-' := by
  rcases isDig_cases h with h|h|h|h|h|h|h|h|h|h <;> subst h <;> decide

theorem isDig_ne_plus {c : Char} (h : isDig c = true) : c ≠ '+' := by
  rcases isDig_cases h with h|h|h|h|h|h|h|h|h|h <;> subst h <;> decide

theorem digitsVal_append_digit (l : List Char) (c : Char) :
    digitsVal (l ++ [c]) = digitsVal l * 10 + digVal c := by
  simp [digitsVal, List.foldl_append]

theorem natReprAux_spec : ∀ fuel n : ℕ, n ≤ fuel → 0 < n →
    natReprAux fuel n ≠ [] ∧ (natReprAux fuel n).all isDig = true ∧
      digitsVal (natReprAux fuel n) = n := by
  intro fuel
  induction fuel with
  | zero => intro n h1 h2; omega
  | succ f ih =>
    intro n h1 h2
    have hne : n ≠ 0 := by omega
    simp only [natReprAux, if_neg hne]
    have hmod : n % 10 < 10 := Nat.mod_lt _ (by norm_num)
    by_cases hq : n / 10 = 0
    · rw [hq, natReprAux_zero]
      have hsmall : n < 10 := by omega
      refine ⟨by simp, ?_, ?_⟩
      · simp [isDig_digitChar hmod]
      · have : digitsVal [digitChar (n % 10)] = digVal (digitChar (n % 10)) := by
          simp [digitsVal]
        simp only [List.nil_append, this, digVal_digitChar hmod]
        omega
    · have hdiv : n / 10 < n := Nat.div_lt_self h2 (by norm_num)
      obtain ⟨hne', hall, hval⟩ := ih (n / 10) (by omega) (by omega)
      refine ⟨by simp, ?_, ?_⟩
      · rw [List.all_append]
        simp [hall, isDig_digitChar hmod]
      · rw [digitsVal_append_digit, hval, digVal_digitChar hmod]
        omega

theorem natRepr_ne_nil (n : ℕ) : natRepr n ≠ [] := by
  unfold natRepr
  by_cases h : n = 0
  · simp [h]
  · rw [if_neg h]
    exact (natReprAux_spec n n le_rfl (by omega)).1

theorem natRepr_all (n : ℕ) : (natRepr n).all isDig = true := by
  unfold natRepr
  by_cases h : n = 0
  · simp [h]
    rfl
  · rw [if_neg h]
    exact (natReprAux_spec n n le_rfl (by omega)).2.1

theorem digitsVal_natRepr (n : ℕ) : digitsVal (natRepr n) = n := by
  unfold natRepr
  by_cases h : n = 0
  · simp [h]
    rfl
  · rw [if_neg h]
    exact (natReprAux_spec n n le_rfl (by omega)).2.2

theorem digitsVal_cons_zero (l : List Char) :
    digitsVal ('0' :: l) = digitsVal l := rfl

theorem pad2_ne_nil (n : ℕ) : pad2 n ≠ [] := by
  unfold pad2
  split
  · simp
  · exact natRepr_ne_nil n

theorem pad2_all (n : ℕ) : (pad2 n).all isDig = true := by
  unfold pad2
  split
  · simp [natRepr_all n]
    rfl
  · exact natRepr_all n

theorem digitsVal_pad2 (n : ℕ) : digitsVal (pad2 n) = n := by
  unfold pad2
  split
  · rw [digitsVal_cons_zero, digitsVal_natRepr]
  · exact digitsVal_natRepr n

theorem dropWhile_eq_self_of_false {p : Char → Bool} {l : List Char}
    (h : ∀ c ∈ l, p c = false) : l.dropWhile p = l := by
  cases l with
  | nil => rfl
  | cons c cs => simp [List.dropWhile_cons, h c (by simp)]

theorem pyStrip_of_no_space {l : List Char}
    (h : ∀ c ∈ l, isSpaceChar c = false) : pyStrip l = l := by
  unfold pyStrip
  rw [dropWhile_eq_self_of_false h,
    dropWhile_eq_self_of_false (fun c hc => h c (List.mem_reverse.mp hc)),
    List.reverse_reverse]

theorem all_no_space_of_digits {l : List Char} (h : l.all isDig = true) :
    ∀ c ∈ l, isSpaceChar c = false :=
  fun c hc => isDig_not_space (List.all_eq_true.mp h c hc)

theorem all_no_colon_of_digits {l : List Char} (h : l.all isDig = true) :
    ∀ c ∈ l, c ≠ ':' :=
  fun c hc => isDig_ne_colon (List.all_eq_true.mp h c hc)

theorem pyInt_digits {l : List Char} (h1 : l ≠ []) (h2 : l.all isDig = true) :
    pyInt l = some ((digitsVal l : ℕ) : ℤ) := by
  have hs : pyStrip l = l := pyStrip_of_no_space (all_no_space_of_digits h2)
  cases l with
  | nil => exact absurd rfl h1
  | cons c cs =>
    have hc : isDig c = true := by
      simp only [List.all_cons, Bool.and_eq_true] at h2
      exact h2.1
    unfold pyInt
    rw [hs]
    simp only [if_neg (isDig_ne_minus hc), if_neg (isDig_ne_plus hc)]
    unfold natCore
    rw [if_pos ⟨by simp, h2⟩]
    rfl

theorem splitColonAux_no_colon :
    ∀ (a acc : List Char), (∀ c ∈ a, c ≠ ':') →
      splitColonAux a acc = [acc.reverse ++ a] := by
  intro a
  induction a with
  | nil => intro acc _; simp [splitColonAux]
  | cons c cs ih =>
    intro acc h
    have hc : c ≠ ':' := h c (by simp)
    simp only [splitColonAux, if_neg hc]
    rw [ih (c :: acc) (fun d hd => h d (by simp [hd]))]
    simp

theorem splitColonAux_append :
    ∀ (a acc rest : List Char), (∀ c ∈ a, c ≠ ':') →
      splitColonAux (a ++ ':' :: rest) acc =
        (acc.reverse ++ a) :: splitColonAux rest [] := by
  intro a
  induction a with
  | nil => intro acc rest _; simp [splitColonAux]
  | cons c cs ih =>
    intro acc rest h
    have hc : c ≠ ':' := h c (by simp)
    have hstep : splitColonAux ((c :: cs) ++ ':' :: rest) acc
        = splitColonAux (cs ++ ':' :: rest) (c :: acc) := by
      show (if c = ':' then acc.reverse :: splitColonAux (cs ++ ':' :: rest) []
        else splitColonAux (cs ++ ':' :: rest) (c :: acc)) = _
      rw [if_neg hc]
    rw [hstep, ih (c :: acc) rest (fun d hd => h d (by simp [hd]))]
    simp

/-- The roundtrip core: parsing a formatted second count recovers it. -/
theorem parse_format_roundtrip (n : ℕ) :
    parse_time_to_seconds (format_time_full n) = (n : ℤ) := by
  have hmlt : n % 3600 / 60 < 100 := by omega
  have hslt : n % 60 < 100 := by omega
  unfold parse_time_to_seconds parse_time_core format_time_full
  by_cases hh : n / 3600 > 0
  · rw [if_pos hh]
    simp only [List.append_assoc, List.cons_append]
    have hnospace : ∀ c ∈ natRepr (n / 3600) ++ ':' ::
        (pad2 (n % 3600 / 60) ++ ':' :: pad2 (n % 60)),
        isSpaceChar c = false := by
      intro c hc
      rcases List.mem_append.mp hc with hc | hc
      · exact all_no_space_of_digits (natRepr_all _) c hc
      · rcases List.mem_cons.mp hc with hc | hc
        · subst hc; rfl
        · rcases List.mem_append.mp hc with hc | hc
          · exact all_no_space_of_digits (pad2_all _) c hc
          · rcases List.mem_cons.mp hc with hc | hc
            · subst hc; rfl
            · exact all_no_space_of_digits (pad2_all _) c hc
    rw [pyStrip_of_no_space hnospace]
    unfold splitColon
    rw [splitColonAux_append _ _ _ (all_no_colon_of_digits (natRepr_all _)),
      splitColonAux_append _ _ _ (all_no_colon_of_digits (pad2_all _)),
      splitColonAux_no_colon _ _ (all_no_colon_of_digits (pad2_all _))]
    simp only [List.reverse_nil, List.nil_append]
    simp only [pyInt_digits (natRepr_ne_nil _) (natRepr_all _),
      pyInt_digits (pad2_ne_nil _) (pad2_all _), Option.bind_eq_bind,
      Option.some_bind, Option.pure_def, Option.getD_some]
    rw [digitsVal_natRepr, digitsVal_pad2, digitsVal_pad2]
    push_cast
    omega
  · rw [if_neg hh]
    have hnospace : ∀ c ∈ natRepr (n % 3600 / 60) ++ ':' :: pad2 (n % 60),
        isSpaceChar c = false := by
      intro c hc
      rcases List.mem_append.mp hc with hc | hc
      · exact all_no_space_of_digits (natRepr_all _) c hc
      · rcases List.mem_cons.mp hc with hc | hc
        · subst hc; rfl
        · exact all_no_space_of_digits (pad2_all _) c hc
    rw [pyStrip_of_no_space hnospace]
    unfold splitColon
    rw [splitColonAux_append _ _ _ (all_no_colon_of_digits (natRepr_all _)),
      splitColonAux_no_colon _ _ (all_no_colon_of_digits (pad2_all _))]
    simp only [List.reverse_nil, List.nil_append]
    simp only [pyInt_digits (natRepr_ne_nil _) (natRepr_all _),
      pyInt_digits (pad2_ne_nil _) (pad2_all _), Option.bind_eq_bind,
      Option.some_bind, Option.pure_def, Option.getD_some]
    rw [digitsVal_natRepr, digitsVal_pad2]
    push_cast
    omega

/-- C9: formatting a non-negative second count with `format_time_full`
(`M:SS`, or `H:MM:SS` when hours are present) and parsing it back with
`parse_time_to_seconds` is the identity; and `parse_time_to_seconds` never
raises — whenever its `try` body fails (modelled by `parse_time_core`
returning `none`), the `except` arm returns `0`. -/
theorem C9_format_parse_roundtrip (n : ℕ) (s : List Char)
    (hs : parse_time_core s = none) :
    parse_time_to_seconds (format_time_full n) = (n : ℤ)
    ∧ parse_time_to_seconds s = 0 := by
  refine ⟨parse_format_roundtrip n, ?_⟩
  unfold parse_time_to_seconds
  rw [hs]
  rfl

/-- Witness for C9 at `n = 3661` (formatted `1:01:01`) and the malformed
input `"xx"`. -/
theorem C9_format_parse_roundtrip_witness :
    parse_time_to_seconds (format_time_full 3661) = ((3661 : ℕ) : ℤ) :=
  (C9_format_parse_roundtrip 3661 ("xx".toList) (by decide)).1

end DiyTips
